import Mathlib

/-!
# Verification of the fancy-nlp NER predictor

Shallow embedding of `src/fancy_nlp/predictors/ner_predictor.py`.

* Probabilities are modelled as rationals (`ℚ`); a probability matrix is a
  list of rows, each row a list of class probabilities.
* BIO/BIOES labels are structured values: the outside marker, or a role
  (begin / inside / end / single) attached to an entity type.
* The chunk extractor (`get_entities`, provided in the source by the external
  `seqeval` library, whose code is not under `src/`) is modelled from the
  spec, §4.2.
* The external model and preprocessor are parameters of `NERPredictor`;
  fallible Python operations (`assert`, indexing `xs[0]`, `list(x)` on a
  non-iterable) are modelled with `Except PyError`.
-/

namespace FancyNLP

/-- Role part of a BIO/BIOES label: begin, inside, end or single. -/
inductive Role
  | B
  | I
  | E
  | S
deriving DecidableEq

/-- A tag: the outside marker `O`, or `<role>-<type>` such as `B-LOC`. -/
inductive Label
  | O
  | mark (r : Role) (ty : String)
deriving DecidableEq

/-- A chunk as returned by the extractor: entity type, start index, and
INCLUSIVE end index (the exported entity adds 1 to make it exclusive). -/
structure Chunk where
  ctype : String
  cstart : Nat
  cend : Nat
deriving DecidableEq, Inhabited

/-- Scan state of the chunk extractor: the open chunk, if any, as
(entity type, start index), plus the chunks already emitted. -/
structure ExtState where
  opened : Option (String × Nat)
  acc : List Chunk

/-- Close the open chunk (if any) at inclusive end position `i`. -/
def closeChunks : Option (String × Nat) → Nat → List Chunk → List Chunk
  | none, _, acc => acc
  | some (t, s), i, acc => acc ++ [⟨t, s, i⟩]

/-- Modelled from the spec: one step of the Chunk Extractor of §4.2
(implemented in the source by the external seqeval `get_entities`, which is
not under `src/`). Position `i` carries label `l`:
a begin role closes any open chunk and opens a new one at `i`; a single role
closes any open chunk and emits a one-position chunk; an inside/end role
continues the open chunk only when the types match, a mismatch (or no open
chunk) being an implicit boundary; the outside marker closes any open
chunk. -/
def stepLabel (i : Nat) (st : ExtState) (l : Label) : ExtState :=
  match l, st.opened with
  | .O, op => ⟨none, closeChunks op (i - 1) st.acc⟩
  | .mark .B t, op => ⟨some (t, i), closeChunks op (i - 1) st.acc⟩
  | .mark .S t, op => ⟨none, closeChunks op (i - 1) st.acc ++ [⟨t, i, i⟩]⟩
  | .mark .I t, some (t', s) =>
      if t' = t then ⟨some (t', s), st.acc⟩
      else ⟨some (t, i), st.acc ++ [⟨t', s, i - 1⟩]⟩
  | .mark .I t, none => ⟨some (t, i), st.acc⟩
  | .mark .E t, some (t', s) =>
      if t' = t then ⟨none, st.acc ++ [⟨t', s, i⟩]⟩
      else ⟨none, (st.acc ++ [⟨t', s, i - 1⟩]) ++ [⟨t, i, i⟩]⟩
  | .mark .E t, none => ⟨none, st.acc ++ [⟨t, i, i⟩]⟩

/-- Left-to-right scan of the tag sequence, `i` the index of the next
position. -/
def runExtract : Nat → ExtState → List Label → ExtState
  | _, st, [] => st
  | i, st, l :: rest => runExtract (i + 1) (stepLabel i st l) rest

/-- Modelled from the spec: the Chunk Extractor of §4.2 (the source calls the
external seqeval `get_entities`, not under `src/`). Scans the sequence and
closes any chunk still open at end-of-sequence. -/
def get_entities (seq : List Label) : List Chunk :=
  let fin := runExtract 0 ⟨none, []⟩ seq
  closeChunks fin.opened (seq.length - 1) fin.acc

/-- Python slice `l[s:e]` for `0 ≤ s, e` (clamping built in). -/
def listSlice {α : Type} (l : List α) (s e : Nat) : List α :=
  (l.drop s).take (e - s)

/-- Sum of all entries of a 2-D matrix. -/
def matSum (m : List (List ℚ)) : ℚ :=
  (m.map (fun r => r.sum)).sum

/-- Number of entries of a 2-D matrix. -/
def matCount (m : List (List ℚ)) : Nat :=
  (m.map List.length).sum

/-- `np.average` on a 2-D array without an axis argument: the mean of ALL
entries of the flattened array. -/
def npAverage (m : List (List ℚ)) : ℚ :=
  matSum m / (matCount m : ℚ)

/-- One entity record: the five fields built by `entities` in the source. -/
structure Entity where
  text : String
  type : String
  score : ℚ
  beginOffset : Nat
  endOffset : Nat
deriving DecidableEq, Inhabited

/-- `NERPredictor.entities` (staticmethod, `ner_predictor.py` lines 88–106):
for each extracted chunk, the inclusive end is bumped by 1 and the record is
assembled from the text slice, the chunk type, `np.average` over the 2-D
probability slice, and the two offsets. -/
def entities (text : List Char) (tag : List Label) (pred_prob : List (List ℚ)) :
    List Entity :=
  (get_entities tag).map (fun c =>
    let ce := c.cend + 1
    { text := String.mk (listSlice text c.cstart ce)
      type := c.ctype
      score := npAverage (listSlice pred_prob c.cstart ce)
      beginOffset := c.cstart
      endOffset := ce })

/-- A Python text argument: a string, a char-level token list, or a value of
any other type (the invalid case of §7's InvalidInputType). -/
inductive PyText
  | str (s : String)
  | chars (l : List Char)
  | invalid
deriving DecidableEq

/-- Python exceptions the embedded code can raise. -/
inductive PyError
  | assertionError
  | indexError
  | typeError
deriving DecidableEq

/-- Python `len(text)`: number of characters (unreachable for invalid). -/
def pyLen : PyText → Nat
  | .str s => s.length
  | .chars l => l.length
  | .invalid => 0

/-- The character-level token list obtained from a valid text argument. -/
def pyChars : PyText → List Char
  | .str s => s.toList
  | .chars l => l
  | .invalid => []

/-- Python `list(text)`: splits a string into characters, copies a list, and
raises TypeError on a non-iterable. -/
def pyList : PyText → Except PyError PyText
  | .str s => .ok (.chars s.toList)
  | .chars l => .ok (.chars l)
  | .invalid => .error .typeError

/-- Left-to-right effectful map over a list, aborting at the first error —
the evaluation order of a Python list comprehension. -/
def mapExcept {α β : Type} (f : α → Except PyError β) : List α → Except PyError (List β)
  | [] => .ok []
  | a :: as => do
      let b ← f a
      let bs ← mapExcept f as
      pure (b :: bs)

/-- The predictor with its two injected external capabilities (`ner_model`
and `preprocessor`), kept opaque: `prepare_input` produces features of some
type `F`, `predict` a batch of probability matrices, `label_decode` a batch
of tag sequences. -/
structure NERPredictor (F : Type) where
  prepare_input : List PyText → F
  predict : F → List (List (List ℚ))
  label_decode : List (List (List ℚ)) → List Nat → List (List Label)

/-- `predict_prob` (lines 21–37): type-sniffs the single text, prepares the
char-level input, runs the model and returns `pred_probs[0]`. A text that is
neither list nor str fails the `assert` before any external call. -/
def NERPredictor.predict_prob {F : Type} (P : NERPredictor F) (text : PyText) :
    Except PyError (List (List ℚ)) :=
  match text with
  | .chars l =>
      match P.predict (P.prepare_input [.chars l]) with
      | [] => .error .indexError
      | p :: _ => .ok p
  | .str s =>
      match P.predict (P.prepare_input [.chars s.toList]) with
      | [] => .error .indexError
      | p :: _ => .ok p
  | .invalid => .error .assertionError

/-- `predict_prob_batch` (lines 39–57): inspects `texts[0]` only (IndexError
on an empty batch); a list head sends the batch through unchanged, a str head
maps `list(·)` over every item, anything else fails the `assert` before any
external call. -/
def NERPredictor.predict_prob_batch {F : Type} (P : NERPredictor F)
    (texts : List PyText) : Except PyError (List (List (List ℚ))) :=
  match texts with
  | [] => .error .indexError
  | .chars _ :: _ => .ok (P.predict (P.prepare_input texts))
  | .str _ :: _ => do
      let char_cut_texts ← mapExcept pyList texts
      .ok (P.predict (P.prepare_input char_cut_texts))
  | .invalid :: _ => .error .assertionError

/-- `tag` (lines 59–71): single-text tag sequence; the usable length is
`min(len(text), pred_prob.shape[0])`, and the decoded batch of one is
indexed at 0. -/
def NERPredictor.tag {F : Type} (P : NERPredictor F) (text : PyText) :
    Except PyError (List Label) := do
  let pred_prob ← P.predict_prob text
  let length := min (pyLen text) pred_prob.length
  match P.label_decode [pred_prob] [length] with
  | [] => .error .indexError
  | tg :: _ => pure tg

/-- `tag_batch` (lines 73–86): per-item usable lengths via `zip`, one
decoder call for the whole batch. -/
def NERPredictor.tag_batch {F : Type} (P : NERPredictor F)
    (texts : List PyText) : Except PyError (List (List Label)) := do
  let pred_probs ← P.predict_prob_batch texts
  let lengths := List.zipWith (fun t pp => min (pyLen t) pp.length) texts pred_probs
  pure (P.label_decode pred_probs lengths)

/-- Caller-side `xs[0]` on a fallible list result (as in `tag_batch(texts)[0]`). -/
def firstItem {α : Type} (r : Except PyError (List α)) : Except PyError α :=
  match r with
  | .error e => .error e
  | .ok [] => .error .indexError
  | .ok (x :: _) => .ok x

/-- §6 model contract: the forward pass returns one probability matrix per
batch item. -/
def ModelContract {F : Type} (P : NERPredictor F) : Prop :=
  ∀ ts : List PyText, (P.predict (P.prepare_input ts)).length = ts.length

/-- §4.1 decoder contract: one tag sequence per requested length, item `i`
of exactly length `lengths[i]`. -/
def DecoderContract {F : Type} (P : NERPredictor F) : Prop :=
  ∀ probs lens, (P.label_decode probs lens).length = lens.length ∧
    ∀ i, i < lens.length →
      ((P.label_decode probs lens).getD i []).length = lens.getD i 0

/-- Validity of a batch argument: nonempty, and the first item's type decides
the branch — a char-list head always works, a str head needs every item to be
convertible by `list(·)`. -/
def BatchValid : List PyText → Prop
  | [] => False
  | .chars _ :: _ => True
  | .str _ :: rest => ∀ t ∈ rest, t ≠ .invalid
  | .invalid :: _ => False

/-- A concrete predictor used to witness the contract-hypothesised theorems:
identity features, one single-class row of probability 1 per character, and a
decoder emitting all-outside sequences of the requested lengths. -/
def P0 : NERPredictor (List PyText) where
  prepare_input := id
  predict := fun ts => ts.map (fun t => List.replicate (pyLen t) [1])
  label_decode := fun _ lens => lens.map (fun n => List.replicate n Label.O)

/-- The §8 scenario tag sequence for the text 北京天安门. -/
def tagBJ : List Label :=
  [.mark .B "LOC", .mark .I "LOC", .mark .B "LOC", .mark .I "LOC", .mark .I "LOC"]

/-- The §8 scenario text 北京天安门, as characters. -/
def textBJ : List Char := "北京天安门".toList

/-- Chunk lists that are sorted and pairwise disjoint: every chunk starts no
earlier than the running lower bound and ends no earlier than it starts, the
next chunk starting strictly after the previous end. -/
def ChainLB : Nat → List Chunk → Prop
  | _, [] => True
  | lb, c :: cs => lb ≤ c.cstart ∧ c.cstart ≤ c.cend ∧ ChainLB (c.cend + 1) cs

/-- Every position covered by the chunk carries a non-outside label of `tag`. -/
def CNonO (tag : List Label) (c : Chunk) : Prop :=
  ∀ p, c.cstart ≤ p → p ≤ c.cend → ∃ r ty, tag.get? p = some (Label.mark r ty)

/-- Scan invariant at next index `i`: the emitted chunks form a chain, end
before `i`, and cover only non-outside positions; an open chunk started
before `i`, after every emitted chunk, over non-outside positions. -/
def StInv (tag : List Label) (i : Nat) (st : ExtState) : Prop :=
  ChainLB 0 st.acc ∧
  (∀ c ∈ st.acc, c.cend < i ∧ CNonO tag c) ∧
  match st.opened with
  | none => True
  | some (_, s) => s < i ∧ (∀ c ∈ st.acc, c.cend < s) ∧
      ∀ p, s ≤ p → p < i → ∃ r ty, tag.get? p = some (Label.mark r ty)

/-- Appending a fresh chunk past every end of a chain keeps it a chain. -/
lemma chainLB_append (lb s e : Nat) (t : String) (cs : List Chunk)
    (h : ChainLB lb cs) (hs : ∀ c ∈ cs, c.cend < s) (hlb : lb ≤ s) (hse : s ≤ e) :
    ChainLB lb (cs ++ [⟨t, s, e⟩]) := by
  induction cs generalizing lb with
  | nil => exact ⟨hlb, hse, trivial⟩
  | cons c cs ih =>
      obtain ⟨h1, h2, h3⟩ := h
      refine ⟨h1, h2, ih _ h3 (fun c' hc' => hs c' (List.mem_cons_of_mem _ hc')) ?_⟩
      exact hs c (List.mem_cons_self _ _)

/-- Every member of a chain starts at or after the lower bound and ends at
or after its start. -/
lemma chainLB_mem (lb : Nat) (cs : List Chunk) (h : ChainLB lb cs) :
    ∀ c ∈ cs, lb ≤ c.cstart ∧ c.cstart ≤ c.cend := by
  induction cs generalizing lb with
  | nil => intro c hc; cases hc
  | cons a as ih =>
      intro c hc
      obtain ⟨h1, h2, h3⟩ := h
      rcases List.mem_cons.mp hc with rfl | hc
      · exact ⟨h1, h2⟩
      · have h4 := ih _ h3 c hc
        exact ⟨by omega, h4.2⟩

/-- In a chain, an earlier chunk ends strictly before a later one starts. -/
lemma chainLB_pairwise (lb : Nat) (cs : List Chunk) (h : ChainLB lb cs) :
    ∀ i j, i < j → j < cs.length →
      (cs.getD i default).cend < (cs.getD j default).cstart := by
  induction cs generalizing lb with
  | nil => intro i j _ hj; simp at hj
  | cons a as ih =>
      intro i j hij hj
      obtain ⟨h1, h2, h3⟩ := h
      cases i with
      | zero =>
          cases j with
          | zero => omega
          | succ j' =>
              have hj' : j' < as.length := by simpa using hj
              have hmem : as.getD j' default ∈ as := by
                rw [List.getD_eq_getElem as default hj']
                exact List.getElem_mem hj'
              have h4 := chainLB_mem _ _ h3 _ hmem
              simp only [List.getD_cons_zero, List.getD_cons_succ]
              omega
      | succ i' =>
          cases j with
          | zero => omega
          | succ j' =>
              simp only [List.getD_cons_succ]
              exact ih _ h3 i' j' (by omega) (by simpa using hj)

/-- Closing the open chunk (if any) at `i - 1` yields a chain of chunks that
end before `i` and cover only non-outside positions. -/
lemma closeChunks_inv (tag : List Label) (i : Nat) (st : ExtState)
    (h : StInv tag i st) :
    ChainLB 0 (closeChunks st.opened (i - 1) st.acc) ∧
    ∀ c ∈ closeChunks st.opened (i - 1) st.acc, c.cend < i ∧ CNonO tag c := by
  obtain ⟨op, acc⟩ := st
  obtain ⟨hchain, hacc, hop⟩ := h
  cases op with
  | none => exact ⟨hchain, hacc⟩
  | some ts =>
      obtain ⟨t, s⟩ := ts
      obtain ⟨hsi, hbefore, hnon⟩ := hop
      constructor
      · exact chainLB_append 0 s (i - 1) t acc hchain hbefore (Nat.zero_le _)
          (by omega)
      · intro c hc
        rcases List.mem_append.mp hc with hc | hc
        · exact hacc c hc
        · simp only [List.mem_singleton] at hc
          subst hc
          refine ⟨show i - 1 < i by omega, ?_⟩
          intro p hp1 hp2
          have hp1' : s ≤ p := hp1
          have hp2' : p ≤ i - 1 := hp2
          exact hnon p hp1' (by omega)

/-- One scan step preserves the invariant. -/
lemma stepLabel_inv (tag : List Label) (i : Nat) (st : ExtState) (l : Label)
    (hl : tag.get? i = some l) (h : StInv tag i st) :
    StInv tag (i + 1) (stepLabel i st l) := by
  have hclose := closeChunks_inv tag i st h
  obtain ⟨op, acc⟩ := st
  obtain ⟨hchain, hacc, hop⟩ := h
  cases l with
  | O =>
      exact ⟨hclose.1, fun c hc => ⟨by have := (hclose.2 c hc).1; omega,
        (hclose.2 c hc).2⟩, trivial⟩
  | mark r t =>
      cases r with
      | B =>
          refine ⟨hclose.1, fun c hc => ⟨by have := (hclose.2 c hc).1; omega,
            (hclose.2 c hc).2⟩, ?_⟩
          refine ⟨by omega, fun c hc => (hclose.2 c hc).1, ?_⟩
          intro p hp1 hp2
          obtain rfl : p = i := by omega
          exact ⟨.B, t, hl⟩
      | S =>
          refine ⟨?_, ?_, trivial⟩
          · exact chainLB_append 0 i i t _ hclose.1
              (fun c hc => (hclose.2 c hc).1) (Nat.zero_le _) le_rfl
          · intro c hc
            rcases List.mem_append.mp hc with hc | hc
            · exact ⟨by have := (hclose.2 c hc).1; omega, (hclose.2 c hc).2⟩
            · simp only [List.mem_singleton] at hc
              subst hc
              refine ⟨show i < i + 1 by omega, ?_⟩
              intro p hp1 hp2
              have hp1' : i ≤ p := hp1
              have hp2' : p ≤ i := hp2
              obtain rfl : p = i := by omega
              exact ⟨.S, t, hl⟩
      | I =>
          cases op with
          | none =>
              refine ⟨hchain, fun c hc => ⟨by have := (hacc c hc).1; omega,
                (hacc c hc).2⟩, ?_⟩
              refine ⟨by omega, fun c hc => (hacc c hc).1, ?_⟩
              intro p hp1 hp2
              obtain rfl : p = i := by omega
              exact ⟨.I, t, hl⟩
          | some ts =>
              obtain ⟨t', s⟩ := ts
              obtain ⟨hsi, hbefore, hnon⟩ := hop
              by_cases het : t' = t
              · subst het
                simp only [stepLabel, if_pos rfl]
                refine ⟨hchain, fun c hc => ⟨by have := (hacc c hc).1; omega,
                  (hacc c hc).2⟩, ?_⟩
                refine ⟨by omega, hbefore, ?_⟩
                intro p hp1 hp2
                by_cases hpi : p < i
                · exact hnon p hp1 hpi
                · obtain rfl : p = i := by omega
                  exact ⟨.I, t', hl⟩
              · simp only [stepLabel, if_neg het]
                refine ⟨?_, ?_, ?_⟩
                · exact chainLB_append 0 s (i - 1) t' acc hchain hbefore
                    (Nat.zero_le _) (by omega)
                · intro c hc
                  rcases List.mem_append.mp hc with hc | hc
                  · exact ⟨by have := (hacc c hc).1; omega, (hacc c hc).2⟩
                  · simp only [List.mem_singleton] at hc
                    subst hc
                    refine ⟨show i - 1 < i + 1 by omega, ?_⟩
                    intro p hp1 hp2
                    have hp1' : s ≤ p := hp1
                    have hp2' : p ≤ i - 1 := hp2
                    exact hnon p hp1' (by omega)
                · refine ⟨by omega, ?_, ?_⟩
                  · intro c hc
                    rcases List.mem_append.mp hc with hc | hc
                    · have := hacc c hc; omega
                    · simp only [List.mem_singleton] at hc
                      subst hc
                      show i - 1 < i
                      omega
                  · intro p hp1 hp2
                    obtain rfl : p = i := by omega
                    exact ⟨.I, t, hl⟩
      | E =>
          cases op with
          | none =>
              refine ⟨?_, ?_, trivial⟩
              · exact chainLB_append 0 i i t acc hchain
                  (fun c hc => (hacc c hc).1) (Nat.zero_le _) le_rfl
              · intro c hc
                rcases List.mem_append.mp hc with hc | hc
                · exact ⟨by have := (hacc c hc).1; omega, (hacc c hc).2⟩
                · simp only [List.mem_singleton] at hc
                  subst hc
                  refine ⟨show i < i + 1 by omega, ?_⟩
                  intro p hp1 hp2
                  have hp1' : i ≤ p := hp1
                  have hp2' : p ≤ i := hp2
                  obtain rfl : p = i := by omega
                  exact ⟨.E, t, hl⟩
          | some ts =>
              obtain ⟨t', s⟩ := ts
              obtain ⟨hsi, hbefore, hnon⟩ := hop
              by_cases het : t' = t
              · subst het
                simp only [stepLabel, if_pos rfl]
                refine ⟨?_, ?_, trivial⟩
                · exact chainLB_append 0 s i t' acc hchain hbefore
                    (Nat.zero_le _) (by omega)
                · intro c hc
                  rcases List.mem_append.mp hc with hc | hc
                  · exact ⟨by have := (hacc c hc).1; omega, (hacc c hc).2⟩
                  · simp only [List.mem_singleton] at hc
                    subst hc
                    refine ⟨show i < i + 1 by omega, ?_⟩
                    intro p hp1 hp2
                    have hp1' : s ≤ p := hp1
                    have hp2' : p ≤ i := hp2
                    by_cases hpi : p < i
                    · exact hnon p hp1' hpi
                    · obtain rfl : p = i := by omega
                      exact ⟨.E, t', hl⟩
              · simp only [stepLabel, if_neg het]
                refine ⟨?_, ?_, trivial⟩
                · refine chainLB_append 0 i i t _ ?_ ?_ (Nat.zero_le _) le_rfl
                  · exact chainLB_append 0 s (i - 1) t' acc hchain hbefore
                      (Nat.zero_le _) (by omega)
                  · intro c hc
                    rcases List.mem_append.mp hc with hc | hc
                    · have := hacc c hc; omega
                    · simp only [List.mem_singleton] at hc
                      subst hc
                      show i - 1 < i
                      omega
                · intro c hc
                  rcases List.mem_append.mp hc with hc | hc
                  · rcases List.mem_append.mp hc with hc | hc
                    · exact ⟨by have := (hacc c hc).1; omega, (hacc c hc).2⟩
                    · simp only [List.mem_singleton] at hc
                      subst hc
                      refine ⟨show i - 1 < i + 1 by omega, ?_⟩
                      intro p hp1 hp2
                      have hp1' : s ≤ p := hp1
                      have hp2' : p ≤ i - 1 := hp2
                      exact hnon p hp1' (by omega)
                  · simp only [List.mem_singleton] at hc
                    subst hc
                    refine ⟨show i < i + 1 by omega, ?_⟩
                    intro p hp1 hp2
                    have hp1' : i ≤ p := hp1
                    have hp2' : p ≤ i := hp2
                    obtain rfl : p = i := by omega
                    exact ⟨.E, t, hl⟩

/-- Running the scan over the rest of the tag sequence preserves the
invariant. -/
lemma runExtract_inv (tag : List Label) :
    ∀ (rest : List Label) (i : Nat) (st : ExtState),
      tag.drop i = rest → StInv tag i st →
      StInv tag (i + rest.length) (runExtract i st rest) := by
  intro rest
  induction rest with
  | nil => intro i st _ h; simpa [runExtract] using h
  | cons l rest ih =>
      intro i st hdrop h
      have hl : tag.get? i = some l := by
        have h0 : (tag.drop i).get? 0 = some l := by rw [hdrop]; rfl
        rw [List.get?_eq_getElem?] at h0 ⊢
        rw [List.getElem?_drop] at h0
        simpa using h0
      have hdrop' : tag.drop (i + 1) = rest := by
        have h1 := congrArg (List.drop 1) hdrop
        simpa [List.drop_drop, Nat.add_comm] using h1
      have h2 := ih (i + 1) (stepLabel i st l) hdrop' (stepLabel_inv tag i st l hl h)
      have h3 : i + (l :: rest).length = i + 1 + rest.length := by
        simp only [List.length_cons]
        omega
      rw [h3]
      simpa [runExtract] using h2

/-- The extractor's output is a chain of chunks, each ending inside the tag
sequence and covering only non-outside positions. -/
lemma get_entities_inv (tag : List Label) :
    ChainLB 0 (get_entities tag) ∧
    ∀ c ∈ get_entities tag, c.cend < tag.length ∧ CNonO tag c := by
  have h0 : StInv tag 0 ⟨none, []⟩ := ⟨trivial, by intro c hc; simp at hc, trivial⟩
  have h := runExtract_inv tag tag 0 ⟨none, []⟩ (by simp) h0
  rw [Nat.zero_add] at h
  exact closeChunks_inv tag tag.length (runExtract 0 ⟨none, []⟩ tag) h

/-- C9: for the text 北京天安门 with tag sequence
[B-LOC, I-LOC, B-LOC, I-LOC, I-LOC], entity extraction returns exactly two
entities in order: 北京 (type LOC, offsets [0,2)) and 天安门 (type LOC,
offsets [2,5)). -/
theorem C9_beijing_scenario (prob : List (List ℚ)) :
    (entities textBJ tagBJ prob).map
        (fun e => (e.text, e.type, e.beginOffset, e.endOffset)) =
      [("北京", "LOC", 0, 2), ("天安门", "LOC", 2, 5)] := rfl

/-- C8: a text argument that is neither a string nor a character list makes
`predict_prob` — and `predict_prob_batch`, when it is the inspected first
batch item — fail at the `assert` with an invalid-argument error, for EVERY
model and preprocessor (so before any external call), returning no partial
result. -/
theorem C8_invalid_input_aborts {F : Type} (P : NERPredictor F)
    (rest : List PyText) :
    P.predict_prob PyText.invalid = .error .assertionError ∧
    P.predict_prob_batch (PyText.invalid :: rest) = .error .assertionError ∧
    P.tag PyText.invalid = .error .assertionError ∧
    P.tag_batch (PyText.invalid :: rest) = .error .assertionError :=
  ⟨rfl, rfl, rfl, rfl⟩

/-- C5: chunk extraction and entity building are total functions (modelled
without any error monad: no exception can be raised); the malformed sequence
[I-PER, O, B-LOC] degrades into the boundary-implied chunks (PER,0,0) and
(LOC,2,2), entity assembly succeeds on it, and for every tag sequence the
result is a well-formed (sorted, disjoint) chunk list. -/
theorem C5_malformed_total :
    get_entities [Label.mark .I "PER", .O, .mark .B "LOC"] =
        [⟨"PER", 0, 0⟩, ⟨"LOC", 2, 2⟩] ∧
    (entities ['甲', '乙', '丙'] [Label.mark .I "PER", .O, .mark .B "LOC"]
        [[1], [1], [1]]).map (fun e => (e.text, e.type, e.beginOffset, e.endOffset)) =
      [("甲", "PER", 0, 1), ("丙", "LOC", 2, 3)] ∧
    ∀ tag : List Label, ChainLB 0 (get_entities tag) :=
  ⟨rfl, rfl, fun tag => (get_entities_inv tag).1⟩

/-- C6: extracted chunks are pairwise non-overlapping and ordered by
increasing start, every span has length ≥ 1 (inclusive end not before start),
ends inside the tag sequence, and covers only non-outside positions; hence
when the tag sequence is no longer than the text, every entity's beginOffset
references a position < len(text) and its exclusive endOffset is ≤ len(text),
whatever the (possibly padded) probability matrix. -/
theorem C6_chunk_invariants (text : List Char) (tag : List Label)
    (prob : List (List ℚ)) :
    (∀ i j, i < j → j < (get_entities tag).length →
        ((get_entities tag).getD i default).cend <
          ((get_entities tag).getD j default).cstart) ∧
    (∀ c ∈ get_entities tag, c.cstart ≤ c.cend ∧ c.cend < tag.length ∧
        ∀ p, c.cstart ≤ p → p ≤ c.cend →
          ∃ r ty, tag.get? p = some (Label.mark r ty)) ∧
    (tag.length ≤ text.length → ∀ e ∈ entities text tag prob,
        e.beginOffset < text.length ∧ e.endOffset ≤ text.length) := by
  obtain ⟨hchain, hmem⟩ := get_entities_inv tag
  refine ⟨fun i j hij hj => chainLB_pairwise 0 _ hchain i j hij hj, ?_, ?_⟩
  · intro c hc
    exact ⟨(chainLB_mem 0 _ hchain c hc).2, (hmem c hc).1, (hmem c hc).2⟩
  · intro hlen e he
    simp only [entities, List.mem_map] at he
    obtain ⟨c, hc, rfl⟩ := he
    have h1 := (chainLB_mem 0 _ hchain c hc).2
    have h2 := (hmem c hc).1
    constructor
    · show c.cstart < text.length
      omega
    · show c.cend + 1 ≤ text.length
      omega

/-- Witness for C6 at the 北京天安门 scenario (empty probability matrix, so
the matrix is even shorter than the text). -/
theorem C6_chunk_invariants_witness :
    (((get_entities tagBJ).getD 0 default).cend <
      ((get_entities tagBJ).getD 1 default).cstart) ∧
    ((⟨"LOC", 0, 1⟩ : Chunk).cstart ≤ (⟨"LOC", 0, 1⟩ : Chunk).cend) ∧
    (∃ r ty, tagBJ.get? 0 = some (Label.mark r ty)) ∧
    ((entities textBJ tagBJ []).getD 0 default).beginOffset < textBJ.length ∧
    ((entities textBJ tagBJ []).getD 0 default).endOffset ≤ textBJ.length := by
  have h := C6_chunk_invariants textBJ tagBJ []
  have hl : 0 < (entities textBJ tagBJ []).length := by
    rw [entities, List.length_map]
    decide
  have hmem : (entities textBJ tagBJ []).getD 0 default ∈ entities textBJ tagBJ [] := by
    rw [List.getD_eq_getElem _ _ hl]
    exact List.getElem_mem hl
  exact ⟨h.1 0 1 (by decide) (by decide),
    (h.2.1 ⟨"LOC", 0, 1⟩ (by decide)).1,
    (h.2.1 ⟨"LOC", 0, 1⟩ (by decide)).2.2 0 (by decide) (by decide),
    (h.2.2 (by decide) _ hmem).1,
    (h.2.2 (by decide) _ hmem).2⟩

/-- C4: entities are in bijection with the extracted chunks; the i-th record
carries the five fields, with text the concatenation of the characters over
[start, end), type the chunk type, beginOffset the chunk start, and endOffset
the chunk's inclusive end (its last matching position) plus 1. -/
theorem C4_entity_fields (text : List Char) (tag : List Label)
    (prob : List (List ℚ)) :
    (entities text tag prob).length = (get_entities tag).length ∧
    ∀ i, i < (get_entities tag).length →
      ((entities text tag prob).getD i default).text =
          String.mk (listSlice text ((get_entities tag).getD i default).cstart
            (((get_entities tag).getD i default).cend + 1)) ∧
      ((entities text tag prob).getD i default).type =
          ((get_entities tag).getD i default).ctype ∧
      ((entities text tag prob).getD i default).beginOffset =
          ((get_entities tag).getD i default).cstart ∧
      ((entities text tag prob).getD i default).endOffset =
          ((get_entities tag).getD i default).cend + 1 := by
  refine ⟨by simp [entities], ?_⟩
  intro i hi
  have hlen : i < (entities text tag prob).length := by
    simpa [entities] using hi
  rw [List.getD_eq_getElem _ _ hlen, List.getD_eq_getElem _ _ hi]
  simp [entities]

/-- Witness for C4 at a one-chunk input. -/
theorem C4_entity_fields_witness :
    (entities ['a'] [Label.mark .B "PER"] [[1]]).length =
      (get_entities [Label.mark .B "PER"]).length ∧
    ((entities ['a'] [Label.mark .B "PER"] [[1]]).getD 0 default).text =
        String.mk (listSlice ['a']
          ((get_entities [Label.mark .B "PER"]).getD 0 default).cstart
          (((get_entities [Label.mark .B "PER"]).getD 0 default).cend + 1)) ∧
    ((entities ['a'] [Label.mark .B "PER"] [[1]]).getD 0 default).endOffset =
        ((get_entities [Label.mark .B "PER"]).getD 0 default).cend + 1 := by
  have h := C4_entity_fields ['a'] [Label.mark .B "PER"] [[1]]
  exact ⟨h.1, (h.2 0 (by decide)).1, (h.2 0 (by decide)).2.2.2⟩

/-- A matrix with uniform row width has rows × width entries. -/
lemma matCount_uniform (m : List (List ℚ)) (w : Nat) (h : ∀ r ∈ m, r.length = w) :
    matCount m = m.length * w := by
  induction m with
  | nil => simp [matCount]
  | cons r m ih =>
      have hr := h r (List.mem_cons_self _ _)
      have ih' := ih (fun r' hr' => h r' (List.mem_cons_of_mem _ hr'))
      simp only [matCount, List.map_cons, List.sum_cons, List.length_cons] at *
      rw [hr, ih']
      ring

/-- Summing each row's sum divided by a constant equals the matrix total
divided by that constant. -/
lemma map_rowdiv_sum (m : List (List ℚ)) (w : ℚ) :
    (m.map (fun r => r.sum / w)).sum = matSum m / w := by
  induction m with
  | nil => simp [matSum]
  | cons r m ih =>
      simp only [matSum, List.map_cons, List.sum_cons] at *
      rw [ih, add_div]

/-- C1 is FALSE as stated: for the one-character text ['a'] with tag [B-PER]
and probability row [9/10, 1/10], the chunk covers exactly position 0, so the
mean over the chunk of the position's own assigned-label confidence would be
one of the row's entries (whichever class the label maps to); the code's
score is np.average over the full row, 1/2, which is not an entry of the
row. -/
theorem C1_score_counterexample :
    (entities ['a'] [Label.mark .B "PER"] [[9/10, 1/10]]).map Entity.score =
        [1/2] ∧
    ∀ q ∈ [(9 : ℚ)/10, 1/10], q ≠ 1/2 := by
  constructor
  · simp [entities, get_entities, runExtract, stepLabel, closeChunks, npAverage,
      matSum, matCount, listSlice]
    norm_num
  · intro q hq
    rcases List.mem_cons.mp hq with rfl | hq
    · norm_num
    · rcases List.mem_cons.mp hq with rfl | hq
      · norm_num
      · simp at hq

/-- C1 (amended): the score of each entity equals np.average of the 2-D slice
pred_prob[start:end] — the arithmetic mean of ALL class entries of those rows,
i.e. (for uniform row width w, with the tag sequence not longer than the
matrix) the mean over the chunk's positions of each row's full-distribution
mean, rather than of one selected scalar per row. -/
theorem C1_score_full_distribution (text : List Char) (tag : List Label)
    (prob : List (List ℚ)) (w : Nat) (hw : ∀ r ∈ prob, r.length = w)
    (hlen : tag.length ≤ prob.length) :
    ∀ i, i < (get_entities tag).length →
      ((entities text tag prob).getD i default).score =
        ((listSlice prob ((get_entities tag).getD i default).cstart
            (((get_entities tag).getD i default).cend + 1)).map
          (fun r => r.sum / (w : ℚ))).sum /
        ((((get_entities tag).getD i default).cend + 1 -
            ((get_entities tag).getD i default).cstart : Nat) : ℚ) := by
  intro i hi
  obtain ⟨hchain, hmem⟩ := get_entities_inv tag
  have hilen : i < (entities text tag prob).length := by
    simpa [entities] using hi
  simp only [List.getD_eq_getElem _ _ hi, List.getD_eq_getElem _ _ hilen]
  simp only [entities, List.getElem_map]
  set c := (get_entities tag)[i] with hcdef
  have hcm : c ∈ get_entities tag := by
    rw [hcdef]
    exact List.getElem_mem hi
  have h1 := (chainLB_mem 0 _ hchain c hcm).2
  have h2 := (hmem c hcm).1
  show npAverage (listSlice prob c.cstart (c.cend + 1)) = _
  have hsm : ∀ r ∈ listSlice prob c.cstart (c.cend + 1), r.length = w := by
    intro r hr
    exact hw r (List.mem_of_mem_drop (List.mem_of_mem_take hr))
  have hsl : (listSlice prob c.cstart (c.cend + 1)).length =
      c.cend + 1 - c.cstart := by
    simp only [listSlice, List.length_take, List.length_drop]
    omega
  rw [npAverage, matCount_uniform _ w hsm, hsl, map_rowdiv_sum, div_div,
    Nat.cast_mul, mul_comm]

/-- Witness for the amended C1 at a two-position PER chunk over a 2-class
matrix: the score is the mean of the two row-means, here 1/2. -/
theorem C1_score_full_distribution_witness :
    ((entities ['a', 'b'] [Label.mark .B "PER", .mark .I "PER"]
        [[9/10, 1/10], [8/10, 2/10]]).getD 0 default).score = 1/2 := by
  have h := C1_score_full_distribution ['a', 'b']
      [Label.mark .B "PER", .mark .I "PER"] [[9/10, 1/10], [8/10, 2/10]] 2
      (by decide) (by decide) 0 (by decide)
  rw [h]
  simp [listSlice, get_entities, runExtract, stepLabel, closeChunks]
  norm_num

/-- Both valid text shapes reach the same single-item pipeline, over the
char-level token list. -/
lemma predict_prob_eq {F : Type} (P : NERPredictor F) (t : PyText)
    (ht : t ≠ PyText.invalid) :
    P.predict_prob t =
      match P.predict (P.prepare_input [.chars (pyChars t)]) with
      | [] => .error .indexError
      | p :: _ => .ok p := by
  cases t with
  | str s => rfl
  | chars l => rfl
  | invalid => exact absurd rfl ht

/-- Under the model contract, a one-item batch yields exactly one matrix. -/
lemma predict_singleton {F : Type} (P : NERPredictor F) (hm : ModelContract P)
    (l : List Char) : ∃ m, P.predict (P.prepare_input [PyText.chars l]) = [m] := by
  have h : (P.predict (P.prepare_input [PyText.chars l])).length = 1 := by
    simpa using hm [PyText.chars l]
  exact List.length_eq_one.mp h

/-- Converting a batch of valid items with `list(·)` succeeds and keeps the
batch size. -/
lemma mapExcept_pyList_ok (ts : List PyText) (h : ∀ t ∈ ts, t ≠ PyText.invalid) :
    ∃ cs, mapExcept pyList ts = .ok cs ∧ cs.length = ts.length := by
  induction ts with
  | nil => exact ⟨[], rfl, rfl⟩
  | cons t ts ih =>
      obtain ⟨cs, h1, h2⟩ := ih (fun x hx => h x (List.mem_cons_of_mem _ hx))
      have ht : t ≠ PyText.invalid := h t (List.mem_cons_self _ _)
      obtain ⟨c, hc⟩ : ∃ c, pyList t = .ok c := by
        cases t with
        | str s => exact ⟨_, rfl⟩
        | chars l => exact ⟨_, rfl⟩
        | invalid => exact absurd rfl ht
      refine ⟨c :: cs, ?_, by simp [h2]⟩
      show (do
          let b ← pyList t
          let bs ← mapExcept pyList ts
          pure (b :: bs)) = Except.ok (c :: cs)
      rw [hc, h1]
      rfl

/-- A valid batch makes `predict_prob_batch` succeed with one matrix per
item, under the model contract. -/
lemma predict_prob_batch_ok {F : Type} (P : NERPredictor F)
    (hm : ModelContract P) (ts : List PyText) (hb : BatchValid ts) :
    ∃ pps, P.predict_prob_batch ts = .ok pps ∧ pps.length = ts.length := by
  cases ts with
  | nil => exact absurd hb (by simp [BatchValid])
  | cons t0 rest =>
      cases t0 with
      | chars l => exact ⟨_, rfl, hm _⟩
      | str s =>
          have hall : ∀ t ∈ PyText.str s :: rest, t ≠ PyText.invalid := by
            intro t htm
            rcases List.mem_cons.mp htm with rfl | htm
            · simp
            · exact hb t htm
          obtain ⟨cs, h1, h2⟩ := mapExcept_pyList_ok _ hall
          refine ⟨P.predict (P.prepare_input cs), ?_, ?_⟩
          · show (do
                let char_cut_texts ← mapExcept pyList (PyText.str s :: rest)
                Except.ok (P.predict (P.prepare_input char_cut_texts))) =
              Except.ok (P.predict (P.prepare_input cs))
            rw [h1]
            rfl
          · rw [hm cs, h2]
      | invalid => exact absurd hb (by simp [BatchValid])

/-- `tag` unfolded at a known probability-matrix result. -/
lemma tag_of_predict_prob {F : Type} (P : NERPredictor F) (t : PyText)
    (m : List (List ℚ)) (h : P.predict_prob t = .ok m) :
    P.tag t = match P.label_decode [m] [min (pyLen t) m.length] with
      | [] => .error .indexError
      | tg :: _ => .ok tg := by
  rw [NERPredictor.tag, h]
  rfl

/-- `tag_batch` unfolded at a known batch of probability matrices. -/
lemma tag_batch_of_batch {F : Type} (P : NERPredictor F) (ts : List PyText)
    (pps : List (List (List ℚ))) (h : P.predict_prob_batch ts = .ok pps) :
    P.tag_batch ts = .ok (P.label_decode pps
      (List.zipWith (fun t pp => min (pyLen t) pp.length) ts pps)) := by
  rw [NERPredictor.tag_batch, h]
  rfl

/-- The item-wise value of the zipped usable lengths. -/
lemma getD_zipWith_min (ts : List PyText) (pps : List (List (List ℚ)))
    (i : Nat) (h1 : i < ts.length) (h2 : i < pps.length) :
    (List.zipWith (fun t pp => min (pyLen t) pp.length) ts pps).getD i 0 =
      min (pyLen (ts.getD i PyText.invalid)) ((pps.getD i []).length) := by
  induction ts generalizing pps i with
  | nil => simp at h1
  | cons t ts ih =>
      cases pps with
      | nil => simp at h2
      | cons pp pps =>
          cases i with
          | zero => simp
          | succ i =>
              simp only [List.zipWith_cons_cons, List.getD_cons_succ]
              exact ih pps i (by simpa using h1) (by simpa using h2)

/-- The witness predictor honors the model contract. -/
lemma P0_model : ModelContract P0 := by
  intro ts
  simp [P0]

/-- The witness predictor honors the decoder contract. -/
lemma P0_decoder : DecoderContract P0 := by
  intro probs lens
  refine ⟨by simp [P0], ?_⟩
  intro i hi
  have hi' : i < (P0.label_decode probs lens).length := by simpa [P0] using hi
  rw [List.getD_eq_getElem _ _ hi', List.getD_eq_getElem _ _ hi]
  simp [P0]

/-- C2: assuming the §4.1 decoder contract (and the §6 model contract giving
one matrix per item), `tag t` returns a sequence of length
min(len(t), rows of its probability matrix), and `tag_batch ts` returns, for
every item i, a sequence of length min(len(ts[i]), rows of its matrix). -/
theorem C2_tag_length {F : Type} (P : NERPredictor F)
    (hm : ModelContract P) (hd : DecoderContract P) :
    (∀ t : PyText, t ≠ PyText.invalid →
      ∃ m tg, P.predict_prob t = .ok m ∧ P.tag t = .ok tg ∧
        tg.length = min (pyLen t) m.length) ∧
    (∀ ts : List PyText, BatchValid ts →
      ∃ pps tags, P.predict_prob_batch ts = .ok pps ∧
        P.tag_batch ts = .ok tags ∧
        pps.length = ts.length ∧ tags.length = ts.length ∧
        ∀ i, i < ts.length →
          (tags.getD i []).length =
            min (pyLen (ts.getD i PyText.invalid)) ((pps.getD i []).length)) := by
  constructor
  · intro t ht
    obtain ⟨m, hpp⟩ := predict_singleton P hm (pyChars t)
    have h1 : P.predict_prob t = .ok m := by
      rw [predict_prob_eq P t ht, hpp]
    obtain ⟨hdl, hdi⟩ := hd [m] [min (pyLen t) m.length]
    obtain ⟨tg, htg⟩ := List.length_eq_one.mp (by simpa using hdl)
    refine ⟨m, tg, h1, ?_, ?_⟩
    · rw [tag_of_predict_prob P t m h1, htg]
    · have h2 := hdi 0 (by simp)
      rw [htg] at h2
      simpa using h2
  · intro ts hb
    obtain ⟨pps, hpps, hppl⟩ := predict_prob_batch_ok P hm ts hb
    set lens := List.zipWith (fun t pp => min (pyLen t) pp.length) ts pps
      with hlens
    have hlensl : lens.length = ts.length := by
      rw [hlens, List.length_zipWith, hppl]
      simp
    obtain ⟨hdl, hdi⟩ := hd pps lens
    refine ⟨pps, P.label_decode pps lens, hpps, ?_, hppl, by rw [hdl, hlensl], ?_⟩
    · rw [tag_batch_of_batch P ts pps hpps]
    · intro i hi
      have h3 := hdi i (by rw [hlensl]; exact hi)
      have hits : i < ts.length := hi
      have hipp : i < pps.length := by rw [hppl]; exact hi
      rw [h3, hlens]
      exact getD_zipWith_min ts pps i hits hipp

/-- Witness for C2 with the concrete predictor `P0` on the text "ab" and the
batch ["ab", ['c']]. -/
theorem C2_tag_length_witness :
    (∃ m tg, P0.predict_prob (PyText.str "ab") = .ok m ∧
      P0.tag (PyText.str "ab") = .ok tg ∧
      tg.length = min (pyLen (PyText.str "ab")) m.length) ∧
    (∃ pps tags,
      P0.predict_prob_batch [PyText.str "ab", PyText.chars ['c']] = .ok pps ∧
      P0.tag_batch [PyText.str "ab", PyText.chars ['c']] = .ok tags ∧
      pps.length = 2 ∧ tags.length = 2 ∧
      ∀ i, i < 2 →
        (tags.getD i []).length =
          min (pyLen ([PyText.str "ab", PyText.chars ['c']].getD i PyText.invalid))
            ((pps.getD i []).length)) := by
  have h := C2_tag_length P0 P0_model P0_decoder
  exact ⟨h.1 (PyText.str "ab") (by decide),
    h.2 [PyText.str "ab", PyText.chars ['c']] (by simp [BatchValid])⟩

/-- C3: with a deterministic model and preprocessor (and the model returning
one matrix per batch item), the singleton-batch path indexed at 0 equals the
single-item path: `tag_batch([t])[0] == tag(t)`. No decoder assumption is
needed — both sides hand the identical arguments to `label_decode`. -/
theorem C3_batch_single_consistency {F : Type} (P : NERPredictor F)
    (hm : ModelContract P) (t : PyText) (ht : t ≠ PyText.invalid) :
    firstItem (P.tag_batch [t]) = P.tag t := by
  obtain ⟨m, hpp⟩ := predict_singleton P hm (pyChars t)
  have h1 : P.predict_prob t = .ok m := by
    rw [predict_prob_eq P t ht, hpp]
  have h2 : P.predict_prob_batch [t] = .ok [m] := by
    cases t with
    | str s => exact congrArg Except.ok hpp
    | chars l => exact congrArg Except.ok hpp
    | invalid => exact absurd rfl ht
  rw [tag_batch_of_batch P [t] [m] h2, tag_of_predict_prob P t m h1]
  simp only [List.zipWith_cons_cons, List.zipWith_nil_right]
  cases hdec : P.label_decode [m] [min (pyLen t) m.length] with
  | nil => rfl
  | cons tg rest => rfl

/-- Witness for C3 with the concrete predictor `P0`. -/
theorem C3_batch_single_consistency_witness :
    firstItem (P0.tag_batch [PyText.str "ab"]) = P0.tag (PyText.str "ab") :=
  C3_batch_single_consistency P0 P0_model (PyText.str "ab") (by decide)

/-- C7: under the two external contracts, the empty text decodes to the empty
tag sequence without error, and entity extraction on an empty input yields no
entities, whatever the probability matrix. -/
theorem C7_empty_text {F : Type} (P : NERPredictor F)
    (hm : ModelContract P) (hd : DecoderContract P) :
    P.tag (PyText.str "") = .ok [] ∧
    ∀ prob : List (List ℚ), entities [] [] prob = [] := by
  constructor
  · obtain ⟨m, hpp⟩ := predict_singleton P hm (pyChars (PyText.str ""))
    have h1 : P.predict_prob (PyText.str "") = .ok m := by
      rw [predict_prob_eq P _ (by simp), hpp]
    obtain ⟨hdl, hdi⟩ := hd [m] [min (pyLen (PyText.str "")) m.length]
    obtain ⟨tg, htg⟩ := List.length_eq_one.mp (by simpa using hdl)
    have h2 := hdi 0 (by simp)
    rw [htg] at h2
    have h3 : tg = [] := by
      refine List.eq_nil_of_length_eq_zero ?_
      simpa [pyLen] using h2
    rw [tag_of_predict_prob P _ m h1, htg, h3]
  · intro prob
    rfl

/-- Witness for C7 with the concrete predictor `P0`. -/
theorem C7_empty_text_witness :
    P0.tag (PyText.str "") = .ok [] ∧ entities [] [] [[1]] = [] := by
  have h := C7_empty_text P0 P0_model P0_decoder
  exact ⟨h.1, h.2 [[1]]⟩

end FancyNLP
